import Mathlib

set_option maxHeartbeats 1000000

namespace FilesToOlf

/-- Characters of a Lean string literal.  JavaScript strings are modelled
throughout as `List Char`. -/
def str (s : String) : List Char := s.data

/-! ## Coordinate codec, from `src/utils/excelCoordinates.ts` -/

/-- Fuel-indexed column-letter loop of `coordsToAddress`: while `tempCol > 0`,
prepend `String.fromCharCode(65 + (tempCol - 1) % 26)` and set
`tempCol = (tempCol - 1) / 26`.  The fuel only bounds the iteration count and
is irrelevant as soon as it is at least `col` (`colLettersAux_fuel`). -/
def colLettersAux : Nat → Nat → List Char
  | 0, _ => []
  | fuel + 1, col =>
    if col = 0 then []
    else colLettersAux fuel ((col - 1) / 26) ++ [Char.ofNat (65 + (col - 1) % 26)]

/-- Column letters emitted by `coordsToAddress` for a (non-negative) column. -/
def colLetters (col : Nat) : List Char := colLettersAux col col

/-- Fuel-indexed decimal rendering of a natural number, matching the JavaScript
template interpolation of a non-negative integer. -/
def natToCharsAux : Nat → Nat → List Char
  | 0, n => [Char.ofNat (48 + n % 10)]
  | fuel + 1, n =>
    if n < 10 then [Char.ofNat (48 + n)]
    else natToCharsAux fuel (n / 10) ++ [Char.ofNat (48 + n % 10)]

/-- Decimal digit characters of a natural number (no leading zeros). -/
def natToChars (n : Nat) : List Char := natToCharsAux n n

/-- Decimal rendering of an integer, matching JavaScript template interpolation
`${row}` for an integral number. -/
def intToChars (i : Int) : List Char :=
  if i < 0 then Char.ofNat 45 :: natToChars i.natAbs else natToChars i.toNat

/-- Translation of `coordsToAddress(row, col)` from
`src/utils/excelCoordinates.ts`: the column-letter while loop followed by the
interpolated row.  The loop body only runs while `tempCol > 0`, so a column
that is zero or negative produces no letters at all; the source performs no
input validation and never throws. -/
def coordsToAddress (row col : Int) : List Char :=
  colLetters col.toNat ++ intToChars row

/-- Character class `[A-Z]` of the address regex. -/
def upperAZ (c : Char) : Bool := decide (65 ≤ c.toNat) && decide (c.toNat ≤ 90)

/-- Character class `\d` of the address regex. -/
def digit09 (c : Char) : Bool := decide (48 ≤ c.toNat) && decide (c.toNat ≤ 57)

/-- Column accumulation loop of `cellAddressToCoords`:
`col = col * 26 + (charCode - 64)` over the letter group. -/
def parseColChars (l : List Char) : Nat :=
  l.foldl (fun a c => a * 26 + (c.toNat - 64)) 0

/-- Decimal interpretation of the digit group, as `parseInt` computes it on a
digits-only string. -/
def parseNatChars (l : List Char) : Nat :=
  l.foldl (fun a c => a * 10 + (c.toNat - 48)) 0

/-- Result object of `cellAddressToCoords`. -/
structure CellCoords where
  row : Nat
  col : Nat
deriving DecidableEq, Repr

/-- Translation of `cellAddressToCoords(address)`: the string must match
`^([A-Z]+)(\d+)$` (a maximal non-empty run of capital letters followed by a
non-empty run of digits and nothing else), otherwise the source throws,
modelled as `none`. -/
def cellAddressToCoords (s : List Char) : Option CellCoords :=
  let letters := s.takeWhile upperAZ
  let rest := s.drop letters.length
  if letters.isEmpty || rest.isEmpty || !rest.all digit09 then none
  else some { row := parseNatChars rest, col := parseColChars letters }

/-! ### Codec lemmas -/

theorem charToNat_ofNat {n : Nat} (h : n < 55296) : (Char.ofNat n).toNat = n := by
  have hv : n.isValidChar := Or.inl h
  rw [Char.ofNat, dif_pos hv]
  rfl

theorem colLettersAux_fuel (fuel col : Nat) (h : col ≤ fuel) :
    colLettersAux fuel col = colLetters col := by
  induction fuel using Nat.strong_induction_on generalizing col with
  | _ fuel ih =>
    match fuel with
    | 0 =>
      have hc0 : col = 0 := by omega
      subst hc0
      rfl
    | fuel + 1 =>
      by_cases hc : col = 0
      · subst hc
        rfl
      · obtain ⟨m, rfl⟩ : ∃ m, col = m + 1 := ⟨col - 1, by omega⟩
        show colLettersAux (fuel + 1) (m + 1) = colLettersAux (m + 1) (m + 1)
        simp only [colLettersAux, if_neg (Nat.succ_ne_zero m), Nat.add_sub_cancel]
        congr 1
        have hdm : m / 26 ≤ m := Nat.div_le_self m 26
        rw [ih fuel (Nat.lt_succ_self fuel) (m / 26) (by omega)]
        rw [ih m (by omega) (m / 26) hdm]

/-- Unfolding equation for `colLetters`, the ideal form of the source loop. -/
theorem colLetters_eq (col : Nat) :
    colLetters col =
      if col = 0 then []
      else colLetters ((col - 1) / 26) ++ [Char.ofNat (65 + (col - 1) % 26)] := by
  by_cases hc : col = 0
  · subst hc; rfl
  · rw [if_neg hc]
    obtain ⟨m, rfl⟩ : ∃ m, col = m + 1 := ⟨col - 1, by omega⟩
    show colLettersAux (m + 1) (m + 1) = _
    simp only [colLettersAux, if_neg (Nat.succ_ne_zero m), Nat.add_sub_cancel]
    congr 1
    exact colLettersAux_fuel m (m / 26) (Nat.div_le_self m 26)

theorem natToCharsAux_fuel (fuel n : Nat) (h : n ≤ fuel) :
    natToCharsAux fuel n = natToChars n := by
  induction fuel using Nat.strong_induction_on generalizing n with
  | _ fuel ih =>
    match fuel with
    | 0 =>
      interval_cases n
      rfl
    | fuel + 1 =>
      by_cases hn : n < 10
      · show natToCharsAux (fuel + 1) n = natToCharsAux n n
        rw [natToCharsAux, if_pos hn]
        interval_cases n <;> rfl
      · obtain ⟨m, rfl⟩ : ∃ m, n = m + 1 := ⟨n - 1, by omega⟩
        show natToCharsAux (fuel + 1) (m + 1) = natToCharsAux (m + 1) (m + 1)
        simp only [natToCharsAux, if_neg hn]
        congr 1
        have hdm : (m + 1) / 10 ≤ m := by
          have : (m + 1) / 10 < m + 1 := Nat.div_lt_self (by omega) (by omega)
          omega
        rw [ih fuel (Nat.lt_succ_self fuel) ((m + 1) / 10) (by omega)]
        rw [ih m (by omega) ((m + 1) / 10) hdm]

/-- Unfolding equation for `natToChars`, the ideal decimal recursion. -/
theorem natToChars_eq (n : Nat) :
    natToChars n =
      if n < 10 then [Char.ofNat (48 + n)]
      else natToChars (n / 10) ++ [Char.ofNat (48 + n % 10)] := by
  by_cases hn : n < 10
  · rw [if_pos hn]
    show natToCharsAux n n = _
    interval_cases n <;> rfl
  · rw [if_neg hn]
    obtain ⟨m, rfl⟩ : ∃ m, n = m + 1 := ⟨n - 1, by omega⟩
    show natToCharsAux (m + 1) (m + 1) = _
    simp only [natToCharsAux, if_neg hn]
    congr 1
    apply natToCharsAux_fuel
    have : (m + 1) / 10 < m + 1 := Nat.div_lt_self (by omega) (by omega)
    omega

theorem colLetters_all_upper (col : Nat) : (colLetters col).all upperAZ = true := by
  induction col using Nat.strong_induction_on with
  | _ col ih =>
    rw [colLetters_eq]
    by_cases hc : col = 0
    · simp [hc]
    · rw [if_neg hc]
      rw [List.all_append, Bool.and_eq_true]
      constructor
      · exact ih ((col - 1) / 26) (by
          have := Nat.div_le_self (col - 1) 26
          omega)
      · have hlt : (col - 1) % 26 < 26 := Nat.mod_lt _ (by omega)
        have : (Char.ofNat (65 + (col - 1) % 26)).toNat = 65 + (col - 1) % 26 :=
          charToNat_ofNat (by omega)
        simp [upperAZ, this]
        omega

theorem colLetters_ne_nil {col : Nat} (h : col ≠ 0) : colLetters col ≠ [] := by
  rw [colLetters_eq, if_neg h]
  simp

theorem parseColChars_colLetters (col : Nat) : parseColChars (colLetters col) = col := by
  induction col using Nat.strong_induction_on with
  | _ col ih =>
    rw [colLetters_eq]
    by_cases hc : col = 0
    · simp [hc, parseColChars]
    · rw [if_neg hc]
      unfold parseColChars
      rw [List.foldl_append]
      have hrec : List.foldl (fun a c => a * 26 + (c.toNat - 64)) 0 (colLetters ((col - 1) / 26))
          = (col - 1) / 26 := ih _ (by
            have := Nat.div_le_self (col - 1) 26
            omega)
      rw [hrec]
      have hlt : (col - 1) % 26 < 26 := Nat.mod_lt _ (by omega)
      have hch : (Char.ofNat (65 + (col - 1) % 26)).toNat = 65 + (col - 1) % 26 :=
        charToNat_ofNat (by omega)
      simp [hch]
      have := Nat.div_add_mod (col - 1) 26
      omega

theorem natToChars_all_digit (n : Nat) : (natToChars n).all digit09 = true := by
  induction n using Nat.strong_induction_on with
  | _ n ih =>
    rw [natToChars_eq]
    by_cases hn : n < 10
    · rw [if_pos hn]
      have : (Char.ofNat (48 + n)).toNat = 48 + n := charToNat_ofNat (by omega)
      simp [digit09, this]
      omega
    · rw [if_neg hn]
      rw [List.all_append, Bool.and_eq_true]
      constructor
      · exact ih (n / 10) (Nat.div_lt_self (by omega) (by omega))
      · have hlt : n % 10 < 10 := Nat.mod_lt _ (by omega)
        have : (Char.ofNat (48 + n % 10)).toNat = 48 + n % 10 :=
          charToNat_ofNat (by omega)
        simp [digit09, this]
        omega

theorem natToChars_ne_nil (n : Nat) : natToChars n ≠ [] := by
  rw [natToChars_eq]
  by_cases hn : n < 10
  · simp [hn]
  · simp [hn]

theorem parseNatChars_natToChars (n : Nat) : parseNatChars (natToChars n) = n := by
  induction n using Nat.strong_induction_on with
  | _ n ih =>
    rw [natToChars_eq]
    by_cases hn : n < 10
    · rw [if_pos hn]
      have hch : (Char.ofNat (48 + n)).toNat = 48 + n := charToNat_ofNat (by omega)
      simp [parseNatChars, hch]
    · rw [if_neg hn]
      unfold parseNatChars
      rw [List.foldl_append]
      have hrec : List.foldl (fun a c => a * 10 + (c.toNat - 48)) 0 (natToChars (n / 10))
          = n / 10 := ih _ (Nat.div_lt_self (by omega) (by omega))
      rw [hrec]
      have hlt : n % 10 < 10 := Nat.mod_lt _ (by omega)
      have hch : (Char.ofNat (48 + n % 10)).toNat = 48 + n % 10 :=
        charToNat_ofNat (by omega)
      simp [hch]
      have := Nat.div_add_mod n 10
      omega

theorem takeWhile_append_all {p : Char → Bool} {xs ys : List Char}
    (h : xs.all p = true) : (xs ++ ys).takeWhile p = xs ++ ys.takeWhile p := by
  induction xs with
  | nil => simp
  | cons x t ihx =>
    simp only [List.all_cons, Bool.and_eq_true] at h
    simp [List.takeWhile, h.1, ihx h.2]

theorem takeWhile_upper_natToChars (n : Nat) :
    (natToChars n).takeWhile upperAZ = [] := by
  have hall := natToChars_all_digit n
  have hne := natToChars_ne_nil n
  match hm : natToChars n with
  | [] => exact absurd hm hne
  | c :: t =>
    rw [hm] at hall
    simp only [List.all_cons, Bool.and_eq_true] at hall
    have hd := hall.1
    simp only [digit09, Bool.and_eq_true, decide_eq_true_eq] at hd
    have hu : upperAZ c = false := by
      simp only [upperAZ, Bool.and_eq_false_iff, decide_eq_false_iff_not]
      left
      omega
    simp [List.takeWhile, hu]

/-- C4: coordinate round-trip.  For every row in the interval from 1 to
1048576 and every column in the interval from 1 to 16384, converting the pair
to an address string with `coordsToAddress` and parsing it back with
`cellAddressToCoords` yields exactly the original row and column. -/
theorem cellAddressToCoords_coordsToAddress (r c : Nat)
    (h1 : 1 ≤ r) (h2 : r ≤ 1048576) (h3 : 1 ≤ c) (h4 : c ≤ 16384) :
    cellAddressToCoords (coordsToAddress (r : Int) (c : Int)) =
      some { row := r, col := c } := by
  have htoc : ((c : Int)).toNat = c := Int.toNat_natCast c
  have hrow : intToChars (r : Int) = natToChars r := by
    unfold intToChars
    rw [if_neg (by omega : ¬ (r : Int) < 0), Int.toNat_natCast]
  have haddr : coordsToAddress (r : Int) (c : Int) = colLetters c ++ natToChars r := by
    unfold coordsToAddress
    rw [htoc, hrow]
  rw [haddr]
  have htw : (colLetters c ++ natToChars r).takeWhile upperAZ = colLetters c := by
    rw [takeWhile_append_all (colLetters_all_upper c), takeWhile_upper_natToChars,
      List.append_nil]
  have hle : colLetters c ≠ [] := colLetters_ne_nil (by omega)
  have hne2 : natToChars r ≠ [] := natToChars_ne_nil r
  unfold cellAddressToCoords
  simp only [htw, List.drop_left]
  rw [if_neg (by
    simp [List.isEmpty_iff, hle, hne2, natToChars_all_digit r])]
  rw [parseNatChars_natToChars, parseColChars_colLetters]

/-- Witness for C4 at the concrete pair row 3, column 28 (address `AB3`). -/
theorem cellAddressToCoords_coordsToAddress_witness :
    (1 ≤ 3 ∧ 3 ≤ 1048576 ∧ 1 ≤ 28 ∧ 28 ≤ 16384) ∧
      cellAddressToCoords (coordsToAddress ((3 : Nat) : Int) ((28 : Nat) : Int)) =
        some { row := 3, col := 28 } :=
  ⟨by omega,
    cellAddressToCoords_coordsToAddress 3 28 (by omega) (by omega) (by omega) (by omega)⟩

/-- Definition following the words of the claim for C8, for comparison with the
source translation `coordsToAddress`: a codec that fails with an
InvalidCoordinate error when the column is zero or the row or column is
negative. -/
def coordsToAddressClaimed (row col : Int) : Except (List Char) (List Char) :=
  if col ≤ 0 ∨ row < 0 then Except.error (str "InvalidCoordinate")
  else Except.ok (colLetters col.toNat ++ intToChars row)

/-- C8 counterexample: at row 5, column 0 the source `coordsToAddress` returns
the plain string `5` (the column loop never runs and nothing is validated),
while the claimed behaviour is an InvalidCoordinate failure.  The source has
no failure path at all. -/
theorem coordsToAddress_col_zero_counterexample :
    coordsToAddress 5 0 = str "5" ∧
      coordsToAddressClaimed 5 0 = Except.error (str "InvalidCoordinate") := by
  constructor
  · rfl
  · rfl

/-- C8 amended: `coordsToAddress` performs no input validation.  For every row
and every column that is zero or negative it returns the bare row rendering
with an empty column-letter part, and it never fails. -/
theorem coordsToAddress_no_validation (row col : Int) (h : col ≤ 0) :
    coordsToAddress row col = intToChars row := by
  unfold coordsToAddress
  have : col.toNat = 0 := Int.toNat_of_nonpos h
  rw [this]
  rfl

/-- Witness for the amended C8 at row 5, column 0. -/
theorem coordsToAddress_no_validation_witness :
    ((0 : Int) ≤ 0) ∧ coordsToAddress 5 0 = intToChars 5 :=
  ⟨le_refl 0, coordsToAddress_no_validation 5 0 (le_refl 0)⟩

/-! ## Markdown table renderer, from `src/utils/markdown.ts` -/

/-- JavaScript `cell || ' '` on a string cell: an empty-string cell renders as
a single space; nothing else changes. -/
def padCell (c : List Char) : List Char := if c = [] then str " " else c

/-- One printed table line, the source expression
`'| ' + row.map(cell => cell or ' ').join(' | ') + ' |'`. -/
def mkLine (r : List (List Char)) : List Char :=
  str "| " ++ List.intercalate (str " | ") (r.map padCell) ++ str " |"

/-- Separator line: one `---` cell per header cell. -/
def sepLine (r : List (List Char)) : List Char :=
  str "| " ++ List.intercalate (str " | ") (r.map (fun _ => str "---")) ++ str " |"

/-- Translation of `convertTableToMarkdown(rows)` from `src/utils/markdown.ts`:
empty grid renders as the empty string; otherwise header line, separator line,
then one line per remaining row, joined by newlines.  The source computes a
maximal column count `colCount` but never uses it; each data row is printed
with exactly its own cells. -/
def convertTableToMarkdown (rows : List (List (List Char))) : List Char :=
  match rows with
  | [] => []
  | r0 :: rest =>
    List.intercalate (str "\n") ([mkLine r0, sepLine r0] ++ rest.map mkLine)

/-- Definition following the words of the claim for C9, for comparison with
the source translation: a data row shorter than the header is first padded
with one single-space cell per missing cell, so every printed row has as many
cells as the header. -/
def convertTableToMarkdownClaimed (rows : List (List (List Char))) : List Char :=
  match rows with
  | [] => []
  | r0 :: rest =>
    List.intercalate (str "\n")
      ([mkLine r0, sepLine r0] ++
        rest.map (fun r => mkLine (r ++ List.replicate (r0.length - r.length) (str " "))))

/-- C9 counterexample: for the grid with header row `a`, `b` and the single
shorter data row `x`, the source renderer prints `| x |` with one cell only;
no padding to the header width occurs, so the output differs from the padded
rendering the claim describes. -/
theorem convertTableToMarkdown_ragged_counterexample :
    convertTableToMarkdown [[str "a", str "b"], [str "x"]] =
      str "| a | b |\n| --- | --- |\n| x |" ∧
    convertTableToMarkdown [[str "a", str "b"], [str "x"]] ≠
      convertTableToMarkdownClaimed [[str "a", str "b"], [str "x"]] := by
  constructor
  · rfl
  · decide

/-- C9 amended: the renderer never raises an error and replaces each
empty-string cell that is present by a single space, but it does not pad
short rows: every printed data row is the line built from exactly that row's
own cells, and the cell-level map `padCell` preserves the number of cells. -/
theorem convertTableToMarkdown_no_padding (r0 : List (List Char))
    (rest : List (List (List Char))) :
    convertTableToMarkdown (r0 :: rest) =
      List.intercalate (str "\n") ([mkLine r0, sepLine r0] ++ rest.map mkLine) ∧
    ∀ r : List (List Char), (r.map padCell).length = r.length :=
  ⟨rfl, fun r => List.length_map r padCell⟩

/-! ## Data model, from `src/xlsxTypes.ts` -/

/-- Cell value as the decoder produces it: string, number, boolean, Date or
null.  Numbers are modelled as integers (every claim exercises integral cells
only) and a Date as an opaque integer instant. -/
inductive CellVal where
  | str : List Char → CellVal
  | num : Int → CellVal
  | bool : Bool → CellVal
  | date : Int → CellVal
  | null : CellVal
deriving DecidableEq, Repr

/-- JavaScript truthiness of a cell value: the empty string, zero, false and
null are falsy; a Date object is always truthy. -/
def truthyCell : CellVal → Bool
  | CellVal.str s => !s.isEmpty
  | CellVal.num n => n != 0
  | CellVal.bool b => b
  | CellVal.date _ => true
  | CellVal.null => false

/-- JavaScript `String(v)` on a cell value.  A Date stringifies to a fixed
printable form here; no claim depends on that rendering. -/
def stringOfCell : CellVal → List Char
  | CellVal.str s => s
  | CellVal.num n => intToChars n
  | CellVal.bool b => if b then str "true" else str "false"
  | CellVal.date d => str "Date " ++ intToChars d
  | CellVal.null => str "null"

/-- Cell type tags of `CellType` in `src/xlsxTypes.ts`. -/
inductive CellType where
  | number
  | string
  | boolean
  | date
  | formula
  | empty
deriving DecidableEq, Repr

/-- One cell of the materialized grid (`CellData` in `src/xlsxTypes.ts`). -/
structure CellData where
  address : List Char
  row : Nat
  col : Nat
  value : CellVal
  type : CellType
  formula : Option (List Char)
deriving DecidableEq, Repr

/-- One merged range with its anchor value (`MergedCellRange` in
`src/xlsxTypes.ts`); the parser sets `value` to the top-left cell's value and
`colSpan`, `rowSpan` to the corresponding span widths. -/
structure MergedCellRange where
  ref : List Char
  startRow : Nat
  startCol : Nat
  endRow : Nat
  endCol : Nat
  value : CellVal
  colSpan : Nat
  rowSpan : Nat
deriving DecidableEq, Repr

/-- Rectangle detected per sheet (`TableRegion` in `src/xlsxTableExtractor.ts`). -/
structure TableRegion where
  name : List Char
  startRow : Nat
  startCol : Nat
  endRow : Nat
  endCol : Nat
deriving DecidableEq, Repr

/-- Extracted table (`Table` in `src/xlsxTypes.ts`).  The optional `json`
output field is not part of the model: the converter only reads the fields
below. -/
structure Table where
  name : List Char
  range : List Char
  columns : List (List Char)
  data : List (List CellData)
  mergedHeaders : List MergedCellRange
  markdown : List Char
  hasHierarchicalHeaders : Bool
deriving Repr

/-! ## Hierarchical-header flag, from `src/xlsxTableExtractor.ts` -/

/-- Containment filter of `extractTable`: a merge is kept when it lies fully
inside the region rectangle. -/
def mergeContained (rg : TableRegion) (m : MergedCellRange) : Bool :=
  decide (rg.startRow ≤ m.startRow) && decide (m.endRow ≤ rg.endRow) &&
    decide (rg.startCol ≤ m.startCol) && decide (m.endCol ≤ rg.endCol)

/-- Translation of the `hasHierarchicalHeaders` computation of `extractTable`:
some contained merge satisfies `merge.startRow < region.startRow + 2` and
`merge.colSpan > 1`. -/
def hasHierarchicalHeadersOf (rg : TableRegion) (merges : List MergedCellRange) : Bool :=
  (merges.filter (mergeContained rg)).any
    (fun m => decide (m.startRow < rg.startRow + 2) && decide (1 < m.colSpan))

/-- Region of four rows and two columns used to separate the two-row and
three-row readings of the header-flag condition. -/
def regionC3 : TableRegion :=
  { name := str "Table1", startRow := 1, startCol := 1, endRow := 4, endCol := 2 }

/-- Column-spanning merge anchored in the third row of `regionC3`. -/
def mergeC3 : MergedCellRange :=
  { ref := str "A3:B3", startRow := 3, startCol := 1, endRow := 3, endCol := 2,
    value := CellVal.str (str "H"), colSpan := 2, rowSpan := 1 }

/-- C3 counterexample: the merge starts in the third row of the region
(`startRow = region.startRow + 2`), is contained and has `colSpan > 1`, so the
claimed condition holds, yet the extractor computes
`hasHierarchicalHeaders = false` because the source tests
`startRow < region.startRow + 2`, i.e. only the first two rows. -/
theorem hasHierarchicalHeaders_three_rows_counterexample :
    hasHierarchicalHeadersOf regionC3 [mergeC3] = false ∧
      mergeContained regionC3 mergeC3 = true ∧
      1 < mergeC3.colSpan ∧
      mergeC3.startRow ≤ regionC3.startRow + 2 := by
  decide

/-- C3 amended: for every region and merge list, the extracted flag is true
exactly when some contained merge has `colSpan > 1` and starts within the
first two rows of the region, `startRow < region.startRow + 2`. -/
theorem hasHierarchicalHeaders_iff (rg : TableRegion) (merges : List MergedCellRange) :
    hasHierarchicalHeadersOf rg merges = true ↔
      ∃ m ∈ merges, mergeContained rg m = true ∧ 1 < m.colSpan ∧
        m.startRow < rg.startRow + 2 := by
  simp only [hasHierarchicalHeadersOf, List.any_eq_true, List.mem_filter,
    Bool.and_eq_true, decide_eq_true_eq]
  constructor
  · rintro ⟨m, ⟨hm, hcont⟩, hlt, hcs⟩
    exact ⟨m, hm, hcont, hcs, hlt⟩
  · rintro ⟨m, hm, hcont, hcs, hlt⟩
    exact ⟨m, ⟨hm, hcont⟩, hlt, hcs⟩

/-! ## JSON object model

A JavaScript object is modelled as an association list in insertion order:
assigning an existing key updates it in place, a new key is appended at the
end. -/

/-- JSON value built by the row projector: a cell-value leaf or a nested
object. -/
inductive JVal where
  | prim : CellVal → JVal
  | obj : List (List Char × JVal) → JVal

/-- Association-list model of one JavaScript object. -/
abbrev JObj := List (List Char × JVal)

instance : Inhabited JVal := ⟨JVal.obj []⟩

/-- Property read `o[k]`. -/
def getKey : JObj → List Char → Option JVal
  | [], _ => none
  | (k1, v) :: rest, k => if k1 = k then some v else getKey rest k

/-- Property write `o[k] = v`: update in place when the key exists, append
otherwise. -/
def setKey : JObj → List Char → JVal → JObj
  | [], k, v => [(k, v)]
  | (k1, v1) :: rest, k, v =>
    if k1 = k then (k1, v) :: rest else (k1, v1) :: setKey rest k v

/-! ## JSON converter, from `src/xlsxJsonConverter.ts` -/

/-- Header label of one first-row cell in `convertFlatTable`, the source
expression `String(cell.value or backtick-Column-cell.col)`: any falsy value
triggers the synthesized label, whose number is the absolute worksheet column
`cell.col`. -/
def headerLabel (c : CellData) : List Char :=
  if truthyCell c.value then stringOfCell c.value else str "Column" ++ natToChars c.col

/-- First-row header labels of a table, `data[0].map(...)`. -/
def headersOf (t : Table) : List (List Char) :=
  (t.data.headD []).map headerLabel

/-- Effective key for column position `j` in the flat row loop,
`headers[j] or backtick-Column-(j+1)`: an out-of-range or empty label falls
back to a position-based label. -/
def effHeader (hs : List (List Char)) (j : Nat) : List Char :=
  match hs[j]? with
  | some h => if h = [] then str "Column" ++ natToChars (j + 1) else h
  | none => str "Column" ++ natToChars (j + 1)

/-- Inner loop of `convertFlatTable`: `jsonRow[header] = row[j].value` for
`j` from 0 over the row's cells. -/
def flatRowAux (hs : List (List Char)) : Nat → List CellData → JObj → JObj
  | _, [], o => o
  | j, c :: rest, o =>
    flatRowAux hs (j + 1) rest (setKey o (effHeader hs j) (JVal.prim c.value))

/-- One data row of the flat projection. -/
def flatRow (hs : List (List Char)) (row : List CellData) : JObj :=
  flatRowAux hs 0 row []

/-- Translation of `convertFlatTable`: fewer than two rows yield the empty
result, otherwise the first row provides the labels and every following row
becomes one flat object. -/
def convertFlatTable (t : Table) : List JObj :=
  if t.data.length < 2 then []
  else (t.data.tail).map (flatRow (headersOf t))

/-- First row number of the region, the source expression
`table.data[0]?.[0]?.row ?? 1`. -/
def firstRowOf (t : Table) : Nat :=
  match t.data.head? with
  | some r =>
    match r.head? with
    | some c => c.row
    | none => 1
  | none => 1

/-- Candidate filter of the depth scan in `detectHeaderDepth`:
`merge.colSpan > 1 && merge.startRow <= firstRow + 2`. -/
def isHeaderCandidate (firstRow : Nat) (m : MergedCellRange) : Bool :=
  decide (1 < m.colSpan) && decide (m.startRow ≤ firstRow + 2)

/-- Translation of `detectHeaderDepth`: an empty grid gives 0; otherwise the
depth defaults to 1, is raised to `deepestMergedRow - firstRow + 1` when some
candidate merge ends below the first row, and is clamped to
`data.length - 1`. -/
def detectHeaderDepth (t : Table) : Nat :=
  if t.data.length = 0 then 0
  else
    let firstRow := firstRowOf t
    let deepest := t.mergedHeaders.foldl
      (fun acc m => if isHeaderCandidate firstRow m then max acc m.endRow else acc) firstRow
    let headerDepth := if firstRow < deepest then deepest - firstRow + 1 else 1
    min headerDepth (t.data.length - 1)

/-- Merges intersecting a row, in registration order: the row bucket that
`buildMergeIndex` constructs (the index appends merges in list order, so each
bucket preserves it). -/
def mergesAtRow (ms : List MergedCellRange) (row : Nat) : List MergedCellRange :=
  ms.filter (fun m => decide (m.startRow ≤ row) && decide (row ≤ m.endRow))

/-- The `rowMerges.find(...)` lookup of `buildHeaderNodeForColumn`: the first
registered merge whose row range and column range both contain the query
point. -/
def findMergeAt (ms : List MergedCellRange) (row col : Nat) : Option MergedCellRange :=
  (mergesAtRow ms row).find? (fun m => decide (m.startCol ≤ col) && decide (col ≤ m.endCol))

/-- The recurring source pattern `String(x or '')`: the stringified value, or
the empty string when the value is falsy. -/
def strOrEmpty (v : CellVal) : List Char :=
  if truthyCell v then stringOfCell v else []

/-- One path segment of `buildHeaderNodeForColumn` at a header level: the
anchor value of the covering merge if one exists, otherwise the direct cell of
that header row at offset `col - firstColInRow` (an out-of-range index reads
as undefined and stringifies to the empty string).  The source indexes
`table.data[level]` directly; it is in range at every call site because
`level < headerDepth <= data.length - 1`, and the model totalizes it with an
empty default row. -/
def headerSegment (t : Table) (col firstDataRow level : Nat) : List Char :=
  match findMergeAt t.mergedHeaders (firstDataRow + level) col with
  | some m => strOrEmpty m.value
  | none =>
    let rowData := t.data.getD level []
    let firstColInRow :=
      match rowData.head? with
      | some c => c.col
      | none => 1
    match (if col < firstColInRow then none else rowData[col - firstColInRow]?) with
    | some c => strOrEmpty c.value
    | none => []

/-- Header path of one column (`HeaderNode` of the source): `column`, the
ordered segments, and `finalHeader = path[path.length - 1]`, which is
undefined (`none`) for an empty path. -/
structure HeaderNode where
  column : Nat
  path : List (List Char)
  finalHeader : Option (List Char)
deriving DecidableEq, Repr

/-- Translation of `buildHeaderNodeForColumn`. -/
def buildHeaderNodeForColumn (col : Nat) (t : Table) (headerDepth : Nat) : HeaderNode :=
  let path := (List.range headerDepth).map (headerSegment t col (firstRowOf t))
  { column := col, path := path, finalHeader := path.getLast? }

/-- Translation of `buildHeaderTree`: one header node per column of the first
row (the source reads `data[0].length` and `data[0][colIdx].col`; the model
totalizes the empty-grid case with an empty first row). -/
def buildHeaderTree (t : Table) (headerDepth : Nat) : List HeaderNode :=
  (t.data.headD []).map (fun c => buildHeaderNodeForColumn c.col t headerDepth)

/-- Truthiness of a JavaScript value, for the `!current[key]` test of
`buildJsonRow`: every object is truthy. -/
def truthyJVal : JVal → Bool
  | JVal.prim c => truthyCell c
  | JVal.obj _ => true

/-- One column's write in `buildJsonRow`: walk the non-final path segments,
allocating an empty object where the current property is absent or falsy and
reusing it otherwise, then assign the cell value at the final segment.  An
empty path makes the source read `path[-1]`, which is undefined, and the
assignment `current[undefined] = v` stores the value under the key
`"undefined"`.  Descending into a truthy primitive makes every following
assignment of this column a silent no-op (sloppy-mode property write on a
primitive), leaving the object unchanged. -/
def setPath (o : JObj) : List (List Char) → CellVal → JObj
  | [], v => setKey o (str "undefined") (JVal.prim v)
  | [k], v => setKey o k (JVal.prim v)
  | k :: k2 :: rest, v =>
    match getKey o k with
    | some (JVal.obj fields) => setKey o k (JVal.obj (setPath fields (k2 :: rest) v))
    | some (JVal.prim p) =>
      if truthyCell p then o
      else setKey o k (JVal.obj (setPath [] (k2 :: rest) v))
    | none => setKey o k (JVal.obj (setPath [] (k2 :: rest) v))

/-- Translation of `buildJsonRow`: the columns are processed left to right up
to the shorter of row and header tree, each writing its value along its header
path. -/
def buildJsonRow (row : List CellData) (tree : List HeaderNode) : JObj :=
  (row.zip tree).foldl (fun o x => setPath o x.2.path x.1.value) []

/-- Translation of `convertNestedTable`: infer the depth, build the tree, then
project every row from index `headerDepth` on. -/
def convertNestedTable (t : Table) : List JObj :=
  (t.data.drop (detectHeaderDepth t)).map
    (fun row => buildJsonRow row (buildHeaderTree t (detectHeaderDepth t)))

/-- Translation of `convertTableToJson`: flat conversion unless the table has
hierarchical headers and a non-empty merge list. -/
def convertTableToJson (t : Table) : List JObj :=
  if !t.hasHierarchicalHeaders || t.mergedHeaders.isEmpty then convertFlatTable t
  else convertNestedTable t

/-- Path lookup in a built object, for stating what the projector wrote. -/
def lookupPath (o : JObj) : List (List Char) → Option JVal
  | [] => none
  | [k] => getKey o k
  | k :: k2 :: rest =>
    match getKey o k with
    | some (JVal.obj fields) => lookupPath fields (k2 :: rest)
    | some (JVal.prim _) => none
    | none => none

/-! ## C1: header-depth inference -/

/-- Maximum `endRow` over the candidate header merges, measured from the first
row, exactly the quantity the fold of `detectHeaderDepth` tracks. -/
def maxCandidateEndRow (t : Table) : Nat :=
  ((t.mergedHeaders.filter (isHeaderCandidate (firstRowOf t))).map
      MergedCellRange.endRow).foldl max (firstRowOf t)

theorem foldl_max_filter (p : MergedCellRange → Bool) (l : List MergedCellRange) (a : Nat) :
    l.foldl (fun acc m => if p m then max acc m.endRow else acc) a
      = ((l.filter p).map MergedCellRange.endRow).foldl max a := by
  induction l generalizing a with
  | nil => rfl
  | cons m rest ih =>
    simp only [List.foldl_cons, List.filter_cons]
    by_cases hp : p m = true
    · rw [if_pos hp, if_pos hp, List.map_cons, List.foldl_cons]
      exact ih (max a m.endRow)
    · rw [if_neg hp, if_neg hp]
      exact ih a

/-- C1: the inferred header depth equals the default 1 unless the maximum
`endRow` among contained merges with `colSpan > 1` and
`startRow ≤ firstRow + 2` exceeds the first row, in which case it equals
`maxEndRow - firstRow + 1`; the result is clamped to `totalRows - 1`; and a
vertical-only merge (`rowSpan > 1`, `colSpan = 1`) never changes the inferred
depth. -/
theorem detectHeaderDepth_spec (t : Table) :
    detectHeaderDepth t =
      min (if firstRowOf t < maxCandidateEndRow t
             then maxCandidateEndRow t - firstRowOf t + 1 else 1)
          (t.data.length - 1) ∧
    ∀ m : MergedCellRange, m.colSpan = 1 → 1 < m.rowSpan →
      detectHeaderDepth { t with mergedHeaders := m :: t.mergedHeaders }
        = detectHeaderDepth t := by
  constructor
  · simp only [detectHeaderDepth]
    by_cases h0 : t.data.length = 0
    · rw [if_pos h0, h0]
      simp
    · rw [if_neg h0]
      rw [foldl_max_filter]
      rfl
  · intro m hcs hrs
    simp only [detectHeaderDepth]
    have hdata : ({ t with mergedHeaders := m :: t.mergedHeaders } : Table).data = t.data := rfl
    have hfr : firstRowOf { t with mergedHeaders := m :: t.mergedHeaders } = firstRowOf t := rfl
    rw [hdata, hfr]
    have hcand : isHeaderCandidate (firstRowOf t) m = false := by
      simp [isHeaderCandidate, hcs]
    simp only [List.foldl_cons, hcand, Bool.false_eq_true, if_false]

/-- Helper constructor for concrete cells. -/
def cellD (a : String) (r c : Nat) (v : CellVal) (ty : CellType) : CellData :=
  { address := str a, row := r, col := c, value := v, type := ty, formula := none }

/-- Worked-example table of the specification: three rows, columns A to C,
with merges `A1:B1` (anchored at A1, value `Region`) and `B2:C2` (anchored at
B2, value `Q2`, as `extractMergedCells` takes the top-left cell's value). -/
def exampleTable : Table :=
  { name := str "Table1", range := str "A1:C3",
    columns := [str "Region", str "Region", str "Total"],
    data := [
      [cellD "A1" 1 1 (CellVal.str (str "Region")) CellType.string,
       cellD "B1" 1 2 (CellVal.str (str "Region")) CellType.string,
       cellD "C1" 1 3 (CellVal.str (str "Total")) CellType.string],
      [cellD "A2" 2 1 (CellVal.str (str "Q1")) CellType.string,
       cellD "B2" 2 2 (CellVal.str (str "Q2")) CellType.string,
       cellD "C2" 2 3 (CellVal.str (str "Total")) CellType.string],
      [cellD "A3" 3 1 (CellVal.num 100) CellType.number,
       cellD "B3" 3 2 (CellVal.num 200) CellType.number,
       cellD "C3" 3 3 (CellVal.num 300) CellType.number]],
    mergedHeaders := [
      { ref := str "A1:B1", startRow := 1, startCol := 1, endRow := 1, endCol := 2,
        value := CellVal.str (str "Region"), colSpan := 2, rowSpan := 1 },
      { ref := str "B2:C2", startRow := 2, startCol := 2, endRow := 2, endCol := 3,
        value := CellVal.str (str "Q2"), colSpan := 2, rowSpan := 1 }],
    markdown := [],
    hasHierarchicalHeaders := true }

/-- Vertical-only merge used to witness the last clause of C1. -/
def verticalMerge : MergedCellRange :=
  { ref := str "A1:A2", startRow := 1, startCol := 1, endRow := 2, endCol := 1,
    value := CellVal.str (str "Region"), colSpan := 1, rowSpan := 2 }

/-- Witness for C1 on the worked-example table, with the vertical-only merge
prepended for the second clause. -/
theorem detectHeaderDepth_spec_witness :
    detectHeaderDepth exampleTable =
      min (if firstRowOf exampleTable < maxCandidateEndRow exampleTable
             then maxCandidateEndRow exampleTable - firstRowOf exampleTable + 1 else 1)
          (exampleTable.data.length - 1) ∧
    detectHeaderDepth
        { exampleTable with mergedHeaders := verticalMerge :: exampleTable.mergedHeaders }
      = detectHeaderDepth exampleTable :=
  ⟨(detectHeaderDepth_spec exampleTable).1,
   (detectHeaderDepth_spec exampleTable).2 verticalMerge rfl (by decide)⟩

/-! ## C10: flat-projection header fallback -/

/-- C10: the flat projection's label for the first-row cell at position `j` is
the stringified cell value when that value is truthy and otherwise the
synthesized label `Column` followed by the cell's absolute worksheet column
number `cell.col`; the numeric value 0 and the boolean false are falsy and so
trigger the synthesized label. -/
theorem headersOf_fallback (t : Table) (j : Nat) (c : CellData)
    (h : (t.data.headD [])[j]? = some c) :
    (headersOf t)[j]? =
      some (if truthyCell c.value then stringOfCell c.value
            else str "Column" ++ natToChars c.col) ∧
    truthyCell (CellVal.num 0) = false ∧ truthyCell (CellVal.bool false) = false := by
  refine ⟨?_, rfl, rfl⟩
  simp only [headersOf, List.getElem?_map, h, Option.map_some']
  rfl

/-- First-row cell of the offset table: worksheet column 5, falsy value 0. -/
def offsetHeaderCell : CellData := cellD "E1" 1 5 (CellVal.num 0) CellType.number

/-- Flat table whose region starts at worksheet column 5, to separate the
absolute column number from the position within the region. -/
def offsetTable : Table :=
  { name := str "Table1", range := str "E1:E2",
    columns := [str "Column5"],
    data := [[offsetHeaderCell], [cellD "E2" 2 5 (CellVal.num 7) CellType.number]],
    mergedHeaders := [], markdown := [], hasHierarchicalHeaders := false }

/-- Witness for C10: at the offset table the synthesized label is `Column5`,
the absolute worksheet column, although the cell sits at position 1 of the
region. -/
theorem headersOf_fallback_witness :
    ((offsetTable.data.headD [])[0]? = some offsetHeaderCell) ∧
    ((headersOf offsetTable)[0]? =
      some (if truthyCell offsetHeaderCell.value then stringOfCell offsetHeaderCell.value
            else str "Column" ++ natToChars offsetHeaderCell.col) ∧
      truthyCell (CellVal.num 0) = false ∧ truthyCell (CellVal.bool false) = false) ∧
    str "Column" ++ natToChars offsetHeaderCell.col = str "Column5" :=
  ⟨rfl, headersOf_fallback offsetTable 0 offsetHeaderCell rfl, by decide⟩

/-! ## C2: the worked example -/

/-- C2 counterexample: on the worked-example grid the inferred depth is 2 and
the merge lookup at row 2 covers column C, so column C's path segment at the
second level is the anchor value `Q2` of merge `B2:C2` — the path is
`Total`, `Q2`, not `Total`, `Total` as the claim states. -/
theorem exampleTable_columnC_counterexample :
    detectHeaderDepth exampleTable = 2 ∧
    (buildHeaderTree exampleTable 2)[2]? =
      some { column := 3, path := [str "Total", str "Q2"],
             finalHeader := some (str "Q2") } ∧
    [str "Total", str "Q2"] ≠ [str "Total", str "Total"] := by
  refine ⟨by decide, by decide, by decide⟩

/-- C2 amended: for the worked-example grid the inferred depth is 2, column
A's header path is `Region`, `Q1`, column C's header path is `Total`, `Q2`
(the merge `B2:C2` contributes its anchor B2's value), and the nested
projection of the single data row maps `Region` to the object with `Q1` at 100
and `Q2` at 200, and `Total` to the object with `Q2` at 300. -/
theorem exampleTable_worked_example :
    detectHeaderDepth exampleTable = 2 ∧
    (buildHeaderTree exampleTable 2)[0]? =
      some { column := 1, path := [str "Region", str "Q1"],
             finalHeader := some (str "Q1") } ∧
    (buildHeaderTree exampleTable 2)[2]? =
      some { column := 3, path := [str "Total", str "Q2"],
             finalHeader := some (str "Q2") } ∧
    convertTableToJson exampleTable =
      [[(str "Region", JVal.obj [(str "Q1", JVal.prim (CellVal.num 100)),
                                 (str "Q2", JVal.prim (CellVal.num 200))]),
        (str "Total", JVal.obj [(str "Q2", JVal.prim (CellVal.num 300))])]] := by
  refine ⟨by decide, by decide, by decide, rfl⟩

/-! ## C7: regions with fewer than two rows -/

/-- Single-row table with a column-spanning merge, as `extractTable` builds it
for a one-row region whose first two cells are merged: the hierarchical flag
is set and the merge list is non-empty, so `convertTableToJson` takes the
nested path. -/
def oneRowTable : Table :=
  { name := str "Table1", range := str "A1:B1",
    columns := [str "X", str "Y"],
    data := [[cellD "A1" 1 1 (CellVal.str (str "X")) CellType.string,
              cellD "B1" 1 2 (CellVal.str (str "Y")) CellType.string]],
    mergedHeaders := [
      { ref := str "A1:B1", startRow := 1, startCol := 1, endRow := 1, endCol := 2,
        value := CellVal.str (str "X"), colSpan := 2, rowSpan := 1 }],
    markdown := [], hasHierarchicalHeaders := true }

/-- C7: evaluation at the failing input.  For the one-row region the inferred
depth is clamped to 0, every header path is empty, and the nested conversion
projects the single row itself into one object keyed by the string
`undefined` (the JavaScript rendering of `path[-1]`) — one projected row, not
zero as the claim requires. -/
theorem convertTableToJson_one_row_not_empty :
    detectHeaderDepth oneRowTable = 0 ∧
    convertTableToJson oneRowTable =
      [[(str "undefined", JVal.prim (CellVal.str (str "Y")))]] ∧
    (convertTableToJson oneRowTable).length ≠ 0 :=
  ⟨by decide, rfl, by decide⟩

/-! ## C5: flat conversion row count and keys -/

/-- Flat table whose two columns carry the same literal header label. -/
def dupHeaderTable : Table :=
  { name := str "Table1", range := str "A1:B2",
    columns := [str "X", str "X"],
    data := [[cellD "A1" 1 1 (CellVal.str (str "X")) CellType.string,
              cellD "B1" 1 2 (CellVal.str (str "X")) CellType.string],
             [cellD "A2" 2 1 (CellVal.num 1) CellType.number,
              cellD "B2" 2 2 (CellVal.num 2) CellType.number]],
    mergedHeaders := [], markdown := [], hasHierarchicalHeaders := false }

/-- C5 counterexample: a two-column region whose columns share the header
label `X` yields one object with a single key (holding the later column's
value), not one key per column. -/
theorem convertFlatTable_dup_label_counterexample :
    convertTableToJson dupHeaderTable = [[(str "X", JVal.prim (CellVal.num 2))]] ∧
    ((convertTableToJson dupHeaderTable).headD []).length = 1 ∧
    (dupHeaderTable.data.headD []).length = 2 :=
  ⟨rfl, by decide, by decide⟩

/-- Effective labels of the region's columns, in order: the key the flat row
loop uses for every column position. -/
def effLabels (t : Table) : List (List Char) :=
  (List.range (t.data.headD []).length).map (effHeader (headersOf t))

theorem keys_setKey (o : JObj) (k : List Char) (v : JVal) :
    (setKey o k v).map Prod.fst =
      if k ∈ o.map Prod.fst then o.map Prod.fst else o.map Prod.fst ++ [k] := by
  induction o with
  | nil =>
    rw [List.map_nil, if_neg (List.not_mem_nil k)]
    rfl
  | cons kv rest ih =>
    obtain ⟨k1, v1⟩ := kv
    by_cases hk : k1 = k
    · subst hk
      have h1 : setKey ((k1, v1) :: rest) k1 v = (k1, v) :: rest := by
        show (if k1 = k1 then (k1, v) :: rest else (k1, v1) :: setKey rest k1 v) = _
        rw [if_pos rfl]
      rw [h1, List.map_cons, List.map_cons,
        if_pos (List.mem_cons_self k1 (rest.map Prod.fst))]
    · have h1 : setKey ((k1, v1) :: rest) k v = (k1, v1) :: setKey rest k v := by
        show (if k1 = k then (k1, v) :: rest else (k1, v1) :: setKey rest k v) = _
        rw [if_neg hk]
      rw [h1, List.map_cons, List.map_cons, ih]
      have hkk1 : ¬ k = k1 := fun h => hk h.symm
      have hiff : (k ∈ k1 :: rest.map Prod.fst) ↔ k ∈ rest.map Prod.fst := by
        rw [List.mem_cons]
        exact or_iff_right hkk1
      by_cases hmem : k ∈ rest.map Prod.fst
      · rw [if_pos hmem, if_pos (hiff.mpr hmem)]
      · rw [if_neg hmem, if_neg (fun h => hmem (hiff.mp h)), List.cons_append]

theorem flatRowAux_keys (hs : List (List Char)) (cells : List CellData) :
    ∀ (j : Nat) (o : JObj),
      (∀ i, i < cells.length → effHeader hs (j + i) ∉ o.map Prod.fst) →
      ((List.range' j cells.length).map (effHeader hs)).Nodup →
      (flatRowAux hs j cells o).map Prod.fst =
        o.map Prod.fst ++ (List.range' j cells.length).map (effHeader hs) := by
  induction cells with
  | nil =>
    intro j o _ _
    simp [flatRowAux]
  | cons c rest ih =>
    intro j o hdisj hnodup
    have hj0 : effHeader hs j ∉ o.map Prod.fst := by
      have h00 := hdisj 0 (by rw [List.length_cons]; omega)
      rwa [Nat.add_zero] at h00
    have hkeys : (setKey o (effHeader hs j) (JVal.prim c.value)).map Prod.fst =
        o.map Prod.fst ++ [effHeader hs j] := by
      rw [keys_setKey, if_neg hj0]
    rw [List.length_cons] at hnodup ⊢
    rw [List.range'_succ] at hnodup ⊢
    simp only [List.map_cons, List.nodup_cons] at hnodup
    show (flatRowAux hs (j + 1) rest (setKey o (effHeader hs j) (JVal.prim c.value))).map
        Prod.fst = _
    rw [ih (j + 1) _ ?_ hnodup.2, hkeys]
    · simp only [List.map_cons]
      rw [List.append_assoc]
      rfl
    · intro i hi
      rw [hkeys]
      simp only [List.mem_append, List.mem_singleton]
      push_neg
      constructor
      · have := hdisj (i + 1) (by simpa using Nat.succ_lt_succ hi)
        have harith : j + (i + 1) = j + 1 + i := by omega
        rwa [harith] at this
      · intro heq
        apply hnodup.1
        rw [← heq]
        exact List.mem_map_of_mem (effHeader hs) (by
          rw [List.mem_range']
          exact ⟨i, hi, by omega⟩)

theorem flatRow_keys (hs : List (List Char)) (row : List CellData)
    (hnodup : ((List.range row.length).map (effHeader hs)).Nodup) :
    (flatRow hs row).map Prod.fst = (List.range row.length).map (effHeader hs) := by
  rw [List.range_eq_range'] at hnodup ⊢
  have := flatRowAux_keys hs row 0 [] (by intro i _; simp) hnodup
  simpa [flatRow] using this

/-- C5 amended: for a region with at least two rows, rectangular data and no
hierarchical headers, the flat projection yields exactly `N - 1` objects, and
when the effective header labels of the columns are pairwise distinct each
object's keys are exactly those labels, one key per column of the region. -/
theorem convertFlatTable_spec (t : Table)
    (h2 : 2 ≤ t.data.length)
    (hrect : ∀ r ∈ t.data, r.length = (t.data.headD []).length)
    (hnodup : (effLabels t).Nodup) :
    (convertFlatTable t).length = t.data.length - 1 ∧
    ∀ o ∈ convertFlatTable t, o.map Prod.fst = effLabels t := by
  have hflat : convertFlatTable t = (t.data.tail).map (flatRow (headersOf t)) := by
    unfold convertFlatTable
    rw [if_neg (by omega)]
  constructor
  · rw [hflat, List.length_map, List.length_tail]
  · intro o ho
    rw [hflat] at ho
    obtain ⟨r, hr, rfl⟩ := List.mem_map.mp ho
    have hrlen : r.length = (t.data.headD []).length :=
      hrect r (List.mem_of_mem_tail hr)
    have : (List.range r.length).map (effHeader (headersOf t)) = effLabels t := by
      rw [hrlen]
      rfl
    rw [flatRow_keys (headersOf t) r (by rw [this]; exact hnodup), this]

/-- Witness for the amended C5 at the two-row offset table. -/
theorem convertFlatTable_spec_witness :
    (2 ≤ offsetTable.data.length ∧
      (∀ r ∈ offsetTable.data, r.length = (offsetTable.data.headD []).length) ∧
      (effLabels offsetTable).Nodup) ∧
    ((convertFlatTable offsetTable).length = offsetTable.data.length - 1 ∧
      ∀ o ∈ convertFlatTable offsetTable, o.map Prod.fst = effLabels offsetTable) :=
  ⟨⟨by decide, by decide, by decide⟩,
    convertFlatTable_spec offsetTable (by decide) (by decide) (by decide)⟩

/-! ## C6: nested projection last-write-wins

The projector always writes along paths of one common length (the inferred
header depth), so the objects it builds are uniform trees: objects all the way
down to leaves at the same depth.  The invariant below makes the walk of
`setPath` analyzable. -/

/-- Shape invariant: at remaining depth 0 a value is a primitive leaf; at
depth `e + 1` it is an object all of whose members have remaining depth `e`. -/
def UniformV : Nat → JVal → Prop
  | 0, v => ∃ c, v = JVal.prim c
  | e + 1, v => ∃ fields, v = JVal.obj fields ∧ ∀ kv ∈ fields, UniformV e kv.2

/-- Every member of the object satisfies the shape invariant. -/
def UniformO (e : Nat) (o : JObj) : Prop := ∀ kv ∈ o, UniformV e kv.2

theorem uniformV_zero {v : JVal} : UniformV 0 v ↔ ∃ c, v = JVal.prim c := Iff.rfl

theorem uniformV_succ {e : Nat} {v : JVal} :
    UniformV (e + 1) v ↔
      ∃ fields, v = JVal.obj fields ∧ ∀ kv ∈ fields, UniformV e kv.2 := Iff.rfl

theorem uniformO_nil (e : Nat) : UniformO e ([] : JObj) :=
  fun kv hkv => absurd hkv (List.not_mem_nil kv)

theorem getKey_cons (k1 : List Char) (v1 : JVal) (rest : JObj) (k : List Char) :
    getKey ((k1, v1) :: rest) k = if k1 = k then some v1 else getKey rest k := rfl

theorem setKey_cons (k1 : List Char) (v1 : JVal) (rest : JObj) (k : List Char) (v : JVal) :
    setKey ((k1, v1) :: rest) k v =
      if k1 = k then (k1, v) :: rest else (k1, v1) :: setKey rest k v := rfl

theorem getKey_mem {o : JObj} {k : List Char} {v : JVal} (h : getKey o k = some v) :
    (k, v) ∈ o := by
  induction o with
  | nil => exact absurd h (by intro hc; cases hc)
  | cons kv rest ih =>
    obtain ⟨k1, v1⟩ := kv
    rw [getKey_cons] at h
    by_cases hk : k1 = k
    · rw [if_pos hk] at h
      subst hk
      obtain rfl : v1 = v := Option.some.inj h
      exact List.mem_cons_self _ _
    · rw [if_neg hk] at h
      exact List.mem_cons_of_mem _ (ih h)

theorem mem_setKey {o : JObj} {k : List Char} {v : JVal} {x : List Char × JVal}
    (h : x ∈ setKey o k v) : x = (k, v) ∨ x ∈ o := by
  induction o with
  | nil =>
    rw [show setKey [] k v = [(k, v)] from rfl] at h
    exact Or.inl (List.mem_singleton.mp h)
  | cons kv rest ih =>
    obtain ⟨k1, v1⟩ := kv
    rw [setKey_cons] at h
    by_cases hk : k1 = k
    · rw [if_pos hk] at h
      subst hk
      rcases List.mem_cons.mp h with h1 | h1
      · exact Or.inl h1
      · exact Or.inr (List.mem_cons_of_mem _ h1)
    · rw [if_neg hk] at h
      rcases List.mem_cons.mp h with h1 | h1
      · exact Or.inr (by rw [h1]; exact List.mem_cons_self _ _)
      · rcases ih h1 with h2 | h2
        · exact Or.inl h2
        · exact Or.inr (List.mem_cons_of_mem _ h2)

theorem getKey_setKey_self (o : JObj) (k : List Char) (v : JVal) :
    getKey (setKey o k v) k = some v := by
  induction o with
  | nil => rw [show setKey [] k v = [(k, v)] from rfl, getKey_cons, if_pos rfl]
  | cons kv rest ih =>
    obtain ⟨k1, v1⟩ := kv
    rw [setKey_cons]
    by_cases hk : k1 = k
    · rw [if_pos hk, getKey_cons, if_pos hk]
    · rw [if_neg hk, getKey_cons, if_neg hk]
      exact ih

theorem getKey_setKey_ne (o : JObj) (k : List Char) (v : JVal) (k1 : List Char)
    (h : k ≠ k1) : getKey (setKey o k v) k1 = getKey o k1 := by
  induction o with
  | nil =>
    rw [show setKey [] k v = [(k, v)] from rfl, getKey_cons,
      if_neg (fun hc => h hc)]
  | cons kv rest ih =>
    obtain ⟨k2, v2⟩ := kv
    rw [setKey_cons]
    by_cases hk : k2 = k
    · subst hk
      rw [if_pos rfl, getKey_cons, getKey_cons, if_neg (fun hc => h hc),
        if_neg (fun hc => h hc)]
    · rw [if_neg hk, getKey_cons, getKey_cons]
      by_cases h2 : k2 = k1
      · rw [if_pos h2, if_pos h2]
      · rw [if_neg h2, if_neg h2]
        exact ih

theorem setPath_single (o : JObj) (k : List Char) (v : CellVal) :
    setPath o [k] v = setKey o k (JVal.prim v) := rfl

theorem setPath_cons_eq (o : JObj) (k k2 : List Char) (rest : List (List Char))
    (v : CellVal) :
    setPath o (k :: k2 :: rest) v =
      match getKey o k with
      | some (JVal.obj fields) => setKey o k (JVal.obj (setPath fields (k2 :: rest) v))
      | some (JVal.prim p) =>
        if truthyCell p then o
        else setKey o k (JVal.obj (setPath [] (k2 :: rest) v))
      | none => setKey o k (JVal.obj (setPath [] (k2 :: rest) v)) := rfl

theorem lookupPath_single (o : JObj) (k : List Char) : lookupPath o [k] = getKey o k := rfl

theorem lookupPath_cons_eq (o : JObj) (k k2 : List Char) (rest : List (List Char)) :
    lookupPath o (k :: k2 :: rest) =
      match getKey o k with
      | some (JVal.obj fields) => lookupPath fields (k2 :: rest)
      | some (JVal.prim _) => none
      | none => none := rfl

theorem lookupPath_nil_obj : ∀ q : List (List Char), lookupPath ([] : JObj) q = none
  | [] => rfl
  | [_] => rfl
  | _ :: _ :: _ => rfl

theorem uniformO_fields {e : Nat} {o : JObj} {k : List Char} {fields : JObj}
    (hu : UniformO (e + 1) o) (h : getKey o k = some (JVal.obj fields)) :
    UniformO e fields := by
  have hv := hu _ (getKey_mem h)
  rw [uniformV_succ] at hv
  obtain ⟨f2, heq, hf⟩ := hv
  obtain rfl : fields = f2 := by injection heq
  exact hf

theorem uniformO_no_prim {e : Nat} {o : JObj} {k : List Char} {p0 : CellVal}
    (hu : UniformO (e + 1) o) (h : getKey o k = some (JVal.prim p0)) : False := by
  have hv := hu _ (getKey_mem h)
  rw [uniformV_succ] at hv
  obtain ⟨f2, heq, _⟩ := hv
  cases heq

theorem uniformO_setPath : ∀ (p : List (List Char)) (o : JObj) (v : CellVal),
    p ≠ [] → UniformO (p.length - 1) o → UniformO (p.length - 1) (setPath o p v)
  | [], _, _, hp, _ => absurd rfl hp
  | [k], o, v, _, hu => by
    rw [setPath_single]
    intro kv hkv
    rcases mem_setKey hkv with rfl | hmem
    · exact ⟨v, rfl⟩
    · exact hu _ hmem
  | k :: k2 :: rest, o, v, _, hu => by
    have hlen : (k :: k2 :: rest).length - 1 = rest.length + 1 := by simp
    rw [hlen] at hu ⊢
    cases h : getKey o k with
    | none =>
      simp only [setPath_cons_eq, h]
      intro kv hkv
      rcases mem_setKey hkv with rfl | hmem
      · rw [uniformV_succ]
        refine ⟨setPath [] (k2 :: rest) v, rfl, ?_⟩
        intro kv2 hkv2
        have hrec := uniformO_setPath (k2 :: rest) [] v (by simp)
          (by simpa using uniformO_nil rest.length) kv2 hkv2
        simpa using hrec
      · exact hu _ hmem
    | some jv =>
      cases jv with
      | prim p0 =>
        simp only [setPath_cons_eq, h]
        by_cases ht : truthyCell p0
        · rw [if_pos ht]
          exact hu
        · rw [if_neg ht]
          intro kv hkv
          rcases mem_setKey hkv with rfl | hmem
          · rw [uniformV_succ]
            refine ⟨setPath [] (k2 :: rest) v, rfl, ?_⟩
            intro kv2 hkv2
            have hrec := uniformO_setPath (k2 :: rest) [] v (by simp)
              (by simpa using uniformO_nil rest.length) kv2 hkv2
            simpa using hrec
          · exact hu _ hmem
      | obj fields =>
        simp only [setPath_cons_eq, h]
        intro kv hkv
        rcases mem_setKey hkv with rfl | hmem
        · rw [uniformV_succ]
          refine ⟨setPath fields (k2 :: rest) v, rfl, ?_⟩
          intro kv2 hkv2
          have hrec := uniformO_setPath (k2 :: rest) fields v (by simp)
            (by simpa using uniformO_fields hu h) kv2 hkv2
          simpa using hrec
        · exact hu _ hmem

theorem lookupPath_setPath_self : ∀ (p : List (List Char)) (o : JObj) (v : CellVal),
    p ≠ [] → UniformO (p.length - 1) o →
    lookupPath (setPath o p v) p = some (JVal.prim v)
  | [], _, _, hp, _ => absurd rfl hp
  | [k], o, v, _, _ => by
    rw [setPath_single, lookupPath_single]
    exact getKey_setKey_self o k (JVal.prim v)
  | k :: k2 :: rest, o, v, _, hu => by
    have hlen : (k :: k2 :: rest).length - 1 = rest.length + 1 := by simp
    rw [hlen] at hu
    cases h : getKey o k with
    | none =>
      simp only [setPath_cons_eq, h, lookupPath_cons_eq, getKey_setKey_self]
      exact lookupPath_setPath_self (k2 :: rest) [] v (by simp)
        (by simpa using uniformO_nil rest.length)
    | some jv =>
      cases jv with
      | prim p0 => exact (uniformO_no_prim hu h).elim
      | obj fields =>
        simp only [setPath_cons_eq, h, lookupPath_cons_eq, getKey_setKey_self]
        exact lookupPath_setPath_self (k2 :: rest) fields v (by simp)
          (by simpa using uniformO_fields hu h)

theorem lookupPath_setPath_ne : ∀ (p q : List (List Char)) (o : JObj) (v : CellVal),
    p ≠ [] → q.length = p.length → q ≠ p → UniformO (p.length - 1) o →
    lookupPath (setPath o p v) q = lookupPath o q
  | [], _, _, _, hp, _, _, _ => absurd rfl hp
  | [k], q, o, v, _, hlen, hne, _ => by
    cases q with
    | nil => exact absurd hlen (by simp)
    | cons k1 qt =>
      cases qt with
      | nil =>
        have hk : k ≠ k1 := by
          intro hc
          exact hne (by rw [hc])
        rw [setPath_single, lookupPath_single, lookupPath_single]
        exact getKey_setKey_ne o k (JVal.prim v) k1 hk
      | cons q2 qr =>
        exfalso
        simp only [List.length_cons, List.length_nil] at hlen
        omega
  | k :: k2 :: rest, q, o, v, _, hlen, hne, hu => by
    have hu1 : UniformO (rest.length + 1) o := by simpa using hu
    cases q with
    | nil => exact absurd hlen (by simp)
    | cons k1 qt =>
      cases qt with
      | nil =>
        exfalso
        simp only [List.length_cons, List.length_nil] at hlen
        omega
      | cons q2 qrest =>
        have hlen2 : (q2 :: qrest).length = (k2 :: rest).length := by
          simp only [List.length_cons] at hlen ⊢
          omega
        by_cases hk : k1 = k
        · subst hk
          have hne2 : (q2 :: qrest) ≠ (k2 :: rest) := by
            intro hc
            exact hne (by rw [hc])
          cases h : getKey o k1 with
          | none =>
            simp only [setPath_cons_eq, h, lookupPath_cons_eq, getKey_setKey_self]
            rw [lookupPath_setPath_ne (k2 :: rest) (q2 :: qrest) [] v (by simp) hlen2 hne2
              (by simpa using uniformO_nil rest.length)]
            exact lookupPath_nil_obj (q2 :: qrest)
          | some jv =>
            cases jv with
            | prim p0 => exact (uniformO_no_prim hu1 h).elim
            | obj fields =>
              simp only [setPath_cons_eq, h, lookupPath_cons_eq, getKey_setKey_self]
              exact lookupPath_setPath_ne (k2 :: rest) (q2 :: qrest) fields v (by simp)
                hlen2 hne2 (by simpa using uniformO_fields hu1 h)
        · have hk2 : k ≠ k1 := fun hc => hk hc.symm
          cases h : getKey o k with
          | none =>
            simp only [setPath_cons_eq, h, lookupPath_cons_eq,
              getKey_setKey_ne o k (JVal.obj (setPath [] (k2 :: rest) v)) k1 hk2]
          | some jv =>
            cases jv with
            | prim p0 => exact (uniformO_no_prim hu1 h).elim
            | obj fields =>
              simp only [setPath_cons_eq, h, lookupPath_cons_eq,
                getKey_setKey_ne o k (JVal.obj (setPath fields (k2 :: rest) v)) k1 hk2]

theorem uniformO_foldl (d : Nat) (hd : 0 < d) (l : List (CellData × HeaderNode)) :
    ∀ o : JObj, (∀ x ∈ l, x.2.path.length = d) → UniformO (d - 1) o →
      UniformO (d - 1) (l.foldl (fun o x => setPath o x.2.path x.1.value) o) := by
  induction l with
  | nil =>
    intro o _ hu
    exact hu
  | cons x t ih =>
    intro o hlen hu
    rw [List.foldl_cons]
    apply ih
    · intro y hy
      exact hlen y (List.mem_cons_of_mem x hy)
    · have hx := hlen x (List.mem_cons_self x t)
      have hne : x.2.path ≠ [] := by
        intro hnil
        rw [hnil] at hx
        simp at hx
        omega
      have hstep := uniformO_setPath x.2.path o x.1.value hne (by rw [hx]; exact hu)
      rwa [hx] at hstep

theorem lookup_foldl_frame (d : Nat) (hd : 0 < d) (p : List (List Char))
    (hp : p.length = d) (l : List (CellData × HeaderNode)) :
    ∀ o : JObj, (∀ x ∈ l, x.2.path.length = d ∧ x.2.path ≠ p) → UniformO (d - 1) o →
      lookupPath (l.foldl (fun o x => setPath o x.2.path x.1.value) o) p = lookupPath o p := by
  induction l with
  | nil =>
    intro o _ _
    rfl
  | cons x t ih =>
    intro o hx hu
    have hxx := hx x (List.mem_cons_self x t)
    have hne : x.2.path ≠ [] := by
      intro hnil
      rw [hnil] at hxx
      have := hxx.1
      simp at this
      omega
    have hunif : UniformO (d - 1) (setPath o x.2.path x.1.value) := by
      have hstep := uniformO_setPath x.2.path o x.1.value hne
        (by rw [hxx.1]; exact hu)
      rwa [hxx.1] at hstep
    rw [List.foldl_cons]
    rw [ih _ (fun y hy => hx y (List.mem_cons_of_mem x hy)) hunif]
    exact lookupPath_setPath_ne x.2.path p o x.1.value hne (by rw [hp, hxx.1])
      (fun hc => hxx.2 hc.symm) (by rw [hxx.1]; exact hu)

theorem zip_getElem_opt : ∀ (a : List CellData) (b : List HeaderNode) (i : Nat),
    (a.zip b)[i]? = Option.bind a[i]? (fun x => Option.map (fun y => (x, y)) b[i]?)
  | [], _, _ => by simp
  | x :: xs, [], i => by
    rw [List.zip_nil_right]
    cases hx : (x :: xs)[i]? <;> simp [hx]
  | _ :: _, _ :: _, 0 => by simp
  | x :: xs, y :: ys, n + 1 => by
    show ((x, y) :: xs.zip ys)[n + 1]? = _
    rw [List.getElem?_cons_succ, List.getElem?_cons_succ, List.getElem?_cons_succ]
    exact zip_getElem_opt xs ys n

/-- C6: nested projection last-write-wins.  For a data row and header tree in
which every column's path has the common positive length `d` (as
`buildHeaderTree` produces), if columns `i` and `j` with `i < j` share the
identical header path `p` and `j` is the rightmost processed column with that
path, then the object `buildJsonRow` builds holds, at the leaf addressed by
`p`, exactly the later column's cell value — the earlier column's value has
been overwritten, and no error occurs (the projector is a total function). -/
theorem buildJsonRow_last_write_wins
    (row : List CellData) (tree : List HeaderNode) (d i j : Nat)
    (p : List (List Char)) (ci cj : CellData) (ni nj : HeaderNode)
    (hd : 0 < d)
    (hlen : ∀ n ∈ tree, n.path.length = d)
    (hij : i < j)
    (hi : row[i]? = some ci) (hni : tree[i]? = some ni) (hpi : ni.path = p)
    (hj : row[j]? = some cj) (hnj : tree[j]? = some nj) (hpj : nj.path = p)
    (hlast : ∀ k nk, j < k → k < row.length → tree[k]? = some nk → nk.path ≠ p) :
    lookupPath (buildJsonRow row tree) p = some (JVal.prim cj.value) := by
  have hlj : (row.zip tree)[j]? = some (cj, nj) := by
    rw [zip_getElem_opt, hj, hnj]
    rfl
  have hplen : p.length = d := by
    rw [← hpj]
    exact hlen nj (List.getElem?_mem hnj)
  have hpne : p ≠ [] := by
    intro hc
    rw [hc] at hplen
    simp at hplen
    omega
  have hupaths : ∀ x ∈ row.zip tree, (x.2 : HeaderNode).path.length = d := by
    intro x hx
    obtain ⟨x1, x2⟩ := x
    exact hlen x2 (List.of_mem_zip hx).2
  have heq1 : buildJsonRow row tree =
      List.foldl (fun o x => setPath o x.2.path x.1.value)
        (List.foldl (fun o x => setPath o x.2.path x.1.value) []
          ((row.zip tree).take (j + 1)))
        ((row.zip tree).drop (j + 1)) := by
    show List.foldl _ [] (row.zip tree) = _
    conv_lhs => rw [← List.take_append_drop (j + 1) (row.zip tree)]
    rw [List.foldl_append]
  have htake : (row.zip tree).take (j + 1) = (row.zip tree).take j ++ [(cj, nj)] := by
    rw [List.take_succ, hlj]
    rfl
  have ho0 : UniformO (d - 1)
      (List.foldl (fun o x => setPath o x.2.path x.1.value) [] ((row.zip tree).take j)) :=
    uniformO_foldl d hd _ []
      (fun x hx => hupaths x (List.mem_of_mem_take hx)) (uniformO_nil (d - 1))
  have ho1 : lookupPath
      (setPath
        (List.foldl (fun o x => setPath o x.2.path x.1.value) [] ((row.zip tree).take j))
        nj.path cj.value) p = some (JVal.prim cj.value) := by
    rw [hpj]
    exact lookupPath_setPath_self p _ cj.value hpne (by rw [hplen]; exact ho0)
  have hnjlen : nj.path.length = d := by
    rw [hpj]
    exact hplen
  have ho1unif : UniformO (d - 1)
      (setPath
        (List.foldl (fun o x => setPath o x.2.path x.1.value) [] ((row.zip tree).take j))
        nj.path cj.value) := by
    have hstep := uniformO_setPath nj.path _ cj.value
      (by rw [hpj]; exact hpne) (by rw [hnjlen]; exact ho0)
    rwa [hnjlen] at hstep
  have htail : ∀ x ∈ (row.zip tree).drop (j + 1),
      (x.2 : HeaderNode).path.length = d ∧ x.2.path ≠ p := by
    intro x hx
    obtain ⟨m, hm⟩ := List.mem_iff_getElem?.mp hx
    rw [List.getElem?_drop, zip_getElem_opt] at hm
    cases hr : row[j + 1 + m]? with
    | none =>
      rw [hr] at hm
      exact absurd hm (by simp)
    | some c1 =>
      cases ht : tree[j + 1 + m]? with
      | none =>
        rw [hr, ht] at hm
        exact absurd hm (by simp)
      | some n1 =>
        rw [hr, ht] at hm
        simp only [Option.bind_eq_bind, Option.some_bind, Option.map_some'] at hm
        obtain rfl : (c1, n1) = x := Option.some.inj hm
        constructor
        · exact hlen n1 (List.getElem?_mem ht)
        · have hkrow : j + 1 + m < row.length := by
            by_contra hc
            rw [List.getElem?_eq_none (by omega)] at hr
            exact absurd hr (by simp)
          exact hlast (j + 1 + m) n1 (by omega) hkrow ht
  rw [heq1, htake, List.foldl_append]
  exact (lookup_foldl_frame d hd p hplen _ _ htail ho1unif).trans ho1

/-- Cells and header nodes for the last-write-wins witness: two columns with
the identical one-segment path `X`. -/
def c6CellA : CellData := cellD "A2" 2 1 (CellVal.num 1) CellType.number

/-- Second witness cell, the later column. -/
def c6CellB : CellData := cellD "B2" 2 2 (CellVal.num 2) CellType.number

/-- Header node of the first witness column. -/
def c6NodeA : HeaderNode := { column := 1, path := [str "X"], finalHeader := some (str "X") }

/-- Header node of the second witness column, sharing the same path. -/
def c6NodeB : HeaderNode := { column := 2, path := [str "X"], finalHeader := some (str "X") }

/-- Witness for C6: with both columns mapping to path `X`, the built object
holds the later column's value 2 at that leaf. -/
theorem buildJsonRow_last_write_wins_witness :
    lookupPath (buildJsonRow [c6CellA, c6CellB] [c6NodeA, c6NodeB]) [str "X"]
      = some (JVal.prim (CellVal.num 2)) :=
  buildJsonRow_last_write_wins [c6CellA, c6CellB] [c6NodeA, c6NodeB] 1 0 1
    [str "X"] c6CellA c6CellB c6NodeA c6NodeB
    (by decide)
    (by decide)
    (by decide)
    rfl rfl rfl rfl rfl rfl
    (by
      intro k nk h1 h2 _
      have h2' : k < 2 := by simpa using h2
      exact absurd h2' (by omega))

end FilesToOlf
